import Mathlib

/-!
# plantir: pull-request aggregation

A shallow embedding of the aggregation code of `internal/github/client.go`
(`fetchPRs`, `FetchReviewRequests`, `FetchReviewed`, `joinStrings`, `FetchAll`)
and of the sort and limit steps of `cmd/list.go`, followed by theorems about
them.

Conventions of the embedding.

* A Go `string` is a `String`, a Go `int` is an `Int`, a slice is a `List`
  and `append(xs, x)` is `xs ++ [x]`.
* A `time.Time` is the instant it denotes, a signed number of nanoseconds
  counted from the zero `Time` (`0001-01-01T00:00:00Z`).  Instants before the
  zero `Time` exist in Go (`time.Parse` accepts the years `0000` to `9999` and
  any zone offset), so the offset is an `Int`.
* `time.Parse(time.RFC3339, s)` belongs to the Go standard library, not to
  this repository: it is a parameter `parse : String → Option Time` of every
  definition that calls it, `none` standing for a parse error.
* The calls of the `gh` executable and `json.Unmarshal` are the outside world:
  their outcomes are inputs (`World`).
* `sort.Slice` belongs to the Go standard library too: it is a parameter
  (`SortFn`) constrained by its documented contract (`SliceContract`).
* The steps of `listCmd.Run` are embedded from the slice that `filter.Apply`
  returns on: the sort (`sortStep`), the limit (`limitStep`) and what is
  written (`showStep`).
-/

namespace Plantir

/-! ## Time -/

/-- Instant of a `time.Time`: nanoseconds since the zero `Time`, signed. -/
abbrev Time := Int

/-- The zero value `time.Time{}`. -/
def zeroTime : Time := 0

/-- Go `t.After(u)`: the instant `t` is strictly later than `u`. -/
def After (t u : Time) : Bool := decide (u < t)

/-- Go `t, _ := time.Parse(time.RFC3339, s)`: on a parse error `time.Parse`
returns the zero `Time` together with the error, and the error is discarded. -/
def parseOrZero (parse : String → Option Time) (s : String) : Time :=
  match parse s with
  | some t => t
  | none => zeroTime

/-! ## Data model (`pr.go`, and the response types of `client.go`) -/

/-- Go `type PR struct` of `pr.go`. -/
structure PR where
  Number : Int
  Title : String
  URL : String
  Author : String
  Repo : String
  Owner : String
  CreatedAt : Time
  IsDraft : Bool
  Labels : List String
  Activity : String
deriving DecidableEq, Repr

/-- Element of `Labels.Nodes`. -/
structure LabelNode where
  Name : String
deriving DecidableEq, Repr

/-- Element of `ReviewRequests.Nodes`; the field is `RequestedReviewer.Login`.
The query asks for `... on User { login }` only, so a requested reviewer that
is a team decodes with the empty `Login`. -/
structure ReviewRequestNode where
  RequestedReviewerLogin : String
deriving DecidableEq, Repr

/-- Element of `graphQLResponse.Data.Search.Nodes`.  A field absent from the
JSON document decodes as the zero value of its type. -/
structure SearchNode where
  Number : Int
  Title : String
  URL : String
  IsDraft : Bool
  CreatedAt : String
  AuthorLogin : String
  RepositoryName : String
  RepositoryOwnerLogin : String
  Labels : List LabelNode
  ReviewRequests : List ReviewRequestNode
deriving DecidableEq, Repr

/-- Element of `Reviews.Nodes`. -/
structure ReviewNode where
  AuthorLogin : String
  SubmittedAt : String
deriving DecidableEq, Repr

/-- Element of `Commits.Nodes`; the field is `Commit.CommittedDate`. -/
structure CommitNode where
  CommittedDate : String
deriving DecidableEq, Repr

/-- Element of `Comments.Nodes`. -/
structure CommentNode where
  CreatedAt : String
deriving DecidableEq, Repr

/-- Element of `reviewedResponse.Data.Search.Nodes`. -/
structure ReviewedNode where
  Number : Int
  Title : String
  URL : String
  IsDraft : Bool
  CreatedAt : String
  AuthorLogin : String
  RepositoryName : String
  RepositoryOwnerLogin : String
  Labels : List LabelNode
  Reviews : List ReviewNode
  Commits : List CommitNode
  Comments : List CommentNode
deriving DecidableEq, Repr

/-- Outcome of one `gh api graphql` call followed by `json.Unmarshal`. -/
inductive GhResult (α : Type) where
  | callFailed (err : String)
  | parseFailed (err : String)
  | decoded (nodes : α)
deriving Repr

/-- The outside world of one `FetchAll`: what each external call returns, in
the order the calls are made.  `pendingUser` and `reviewedUser` are the values
returned by the two calls of `getCurrentUser`, a login being read as text. -/
structure World where
  pendingUser : Except String String
  pendingResp : GhResult (List SearchNode)
  reviewedUser : Except String String
  reviewedResp : GhResult (List ReviewedNode)

/-! ## `getCurrentUser` -/

/-- The bytes a Go `string` with this text holds: its UTF-8 encoding. -/
def bytesOf (s : String) : List UInt8 := s.toUTF8.data.toList

/-- Go `getCurrentUser`, on the outcome of running `gh api user --jq .login`
(an error, or the bytes of the standard output): an error is returned as it
is; otherwise the login is `string(output[:len(output)-1])`, the output
without its last byte, whatever that byte is.  An empty output makes the slice
expression panic: `none`.  The login is given by its bytes, since dropping a
byte may leave bytes that are no text; the login that `fetchPRs` and
`FetchReviewed` receive is the `String` with these bytes. -/
def getCurrentUser (run : Except String (List UInt8)) :
    Option (Except String (List UInt8)) :=
  match run with
  | .error err => some (.error err)
  | .ok output => if output = [] then none else some (.ok output.dropLast)

/-! ## `fetchPRs` and `FetchReviewRequests` -/

/-- The inner loop of `fetchPRs` (lines 353–359): whether some requested
reviewer of the node has the login `currentUser`. -/
def isDirectReviewer (currentUser : String) : List ReviewRequestNode → Bool
  | [] => false
  | rr :: rest =>
    if rr.RequestedReviewerLogin = currentUser then true
    else isDirectReviewer currentUser rest

/-- The label loop (lines 365–368 and 237–240): `labels[i] = l.Name`. -/
def labelNames : List LabelNode → List String
  | [] => []
  | l :: rest => l.Name :: labelNames rest

/-- The `PR` literal of `fetchPRs` (lines 370–382); `Activity` is not set and
so has the zero value `""`. -/
def searchNodePR (parse : String → Option Time) (node : SearchNode) : PR :=
  { Number := node.Number
    Title := node.Title
    URL := node.URL
    Author := node.AuthorLogin
    Repo := node.RepositoryName
    Owner := node.RepositoryOwnerLogin
    IsDraft := node.IsDraft
    Labels := labelNames node.Labels
    CreatedAt := parseOrZero parse node.CreatedAt
    Activity := "" }

/-- The node loop of `fetchPRs` (lines 350–383), with `prs` the slice built so
far. -/
def fetchPRsLoop (parse : String → Option Time) (filterDirectReviewer : Bool)
    (currentUser : String) : List SearchNode → List PR → List PR
  | [], prs => prs
  | node :: rest, prs =>
    if filterDirectReviewer && !isDirectReviewer currentUser node.ReviewRequests then
      fetchPRsLoop parse filterDirectReviewer currentUser rest prs
    else
      fetchPRsLoop parse filterDirectReviewer currentUser rest (prs ++ [searchNodePR parse node])

/-- Go `fetchPRs`.  `user` is what `getCurrentUser` returns (consulted only
when `filterDirectReviewer` is set), `resp` the outcome of the query. -/
def fetchPRs (parse : String → Option Time) (user : Except String String)
    (resp : GhResult (List SearchNode)) (filterDirectReviewer : Bool) :
    Except String (List PR) :=
  let current : Except String String :=
    if filterDirectReviewer then
      match user with
      | .error err => .error ("failed to get current user: " ++ err)
      | .ok login => .ok login
    else .ok ""
  match current with
  | .error err => .error err
  | .ok currentUser =>
    match resp with
    | .callFailed err => .error ("failed to call gh api: " ++ err)
    | .parseFailed err => .error ("failed to parse response: " ++ err)
    | .decoded nodes => .ok (fetchPRsLoop parse filterDirectReviewer currentUser nodes [])

/-- Go `FetchReviewRequests`: `fetchPRs(reviewRequestQuery, true)`. -/
def FetchReviewRequests (parse : String → Option Time) (w : World) : Except String (List PR) :=
  fetchPRs parse w.pendingUser w.pendingResp true

/-! ## `FetchReviewed` -/

/-- The review loop of `FetchReviewed` (lines 199–207), with `lastReviewTime`
the value so far. -/
def lastReviewTimeLoop (parse : String → Option Time) (currentUser : String) :
    List ReviewNode → Time → Time
  | [], lastReviewTime => lastReviewTime
  | review :: rest, lastReviewTime =>
    if review.AuthorLogin = currentUser then
      let t := parseOrZero parse review.SubmittedAt
      if After t lastReviewTime then lastReviewTimeLoop parse currentUser rest t
      else lastReviewTimeLoop parse currentUser rest lastReviewTime
    else lastReviewTimeLoop parse currentUser rest lastReviewTime

/-- `lastReviewTime` after the review loop; it starts as the zero `Time`. -/
def lastReviewTime (parse : String → Option Time) (currentUser : String)
    (reviews : List ReviewNode) : Time :=
  lastReviewTimeLoop parse currentUser reviews zeroTime

/-- The commit loop (lines 209–215), with `newCommits` the counter so far. -/
def newCommitsLoop (parse : String → Option Time) (lastReviewTime : Time) :
    List CommitNode → Int → Int
  | [], newCommits => newCommits
  | commit :: rest, newCommits =>
    let t := parseOrZero parse commit.CommittedDate
    if After t lastReviewTime then newCommitsLoop parse lastReviewTime rest (newCommits + 1)
    else newCommitsLoop parse lastReviewTime rest newCommits

/-- The comment loop (lines 217–223), with `newComments` the counter so far. -/
def newCommentsLoop (parse : String → Option Time) (lastReviewTime : Time) :
    List CommentNode → Int → Int
  | [], newComments => newComments
  | comment :: rest, newComments =>
    let t := parseOrZero parse comment.CreatedAt
    if After t lastReviewTime then newCommentsLoop parse lastReviewTime rest (newComments + 1)
    else newCommentsLoop parse lastReviewTime rest newComments

/-- `newCommits` of a node, as `FetchReviewed` computes it. -/
def newCommits (parse : String → Option Time) (currentUser : String) (node : ReviewedNode) : Int :=
  newCommitsLoop parse (lastReviewTime parse currentUser node.Reviews) node.Commits 0

/-- `newComments` of a node, as `FetchReviewed` computes it. -/
def newComments (parse : String → Option Time) (currentUser : String) (node : ReviewedNode) : Int :=
  newCommentsLoop parse (lastReviewTime parse currentUser node.Reviews) node.Comments 0

/-- The loop of Go `joinStrings` (lines 263–268), with `i` the index and
`result` the string so far. -/
def joinStringsLoop (sep : String) : List String → Nat → String → String
  | [], _, result => result
  | s :: rest, i, result =>
    let result := if i > 0 then result ++ sep else result
    joinStringsLoop sep rest (i + 1) (result ++ s)

/-- Go `joinStrings`. -/
def joinStrings (strs : List String) (sep : String) : String :=
  joinStringsLoop sep strs 0 ""

/-- The `activity` string of `FetchReviewed` (lines 225–235).  `%d` prints the
decimal form of the counter, and `fmt.Sprintf("%s", s)` is `s`. -/
def activityString (newCommits newComments : Int) : String :=
  if newCommits > 0 ∨ newComments > 0 then
    let parts : List String := []
    let parts := if newCommits > 0 then parts ++ [toString newCommits ++ " commits"] else parts
    let parts := if newComments > 0 then parts ++ [toString newComments ++ " comments"] else parts
    joinStrings parts ", "
  else ""

/-- The `PR` literal of `FetchReviewed` (lines 242–255) for one node. -/
def reviewedNodePR (parse : String → Option Time) (currentUser : String)
    (node : ReviewedNode) : PR :=
  { Number := node.Number
    Title := node.Title
    URL := node.URL
    Author := node.AuthorLogin
    Repo := node.RepositoryName
    Owner := node.RepositoryOwnerLogin
    IsDraft := node.IsDraft
    Labels := labelNames node.Labels
    CreatedAt := parseOrZero parse node.CreatedAt
    Activity := activityString (newCommits parse currentUser node) (newComments parse currentUser node) }

/-- The node loop of `FetchReviewed` (lines 197–256), with `prs` the slice
built so far. -/
def FetchReviewedLoop (parse : String → Option Time) (currentUser : String) :
    List ReviewedNode → List PR → List PR
  | [], prs => prs
  | node :: rest, prs =>
    FetchReviewedLoop parse currentUser rest (prs ++ [reviewedNodePR parse currentUser node])

/-- Go `FetchReviewed`. -/
def FetchReviewed (parse : String → Option Time) (w : World) : Except String (List PR) :=
  match w.reviewedUser with
  | .error err => .error ("failed to get current user: " ++ err)
  | .ok currentUser =>
    match w.reviewedResp with
    | .callFailed err => .error ("failed to call gh api: " ++ err)
    | .parseFailed err => .error ("failed to parse response: " ++ err)
    | .decoded nodes => .ok (FetchReviewedLoop parse currentUser nodes [])

/-! ## `FetchAll` -/

/-- One of the two merge loops of `FetchAll` (lines 164–169 and 170–175): the
state is the map `seen` (an absent key reads `false`) and the slice `all`. -/
def mergeLoop : List PR → (Int → Bool) × List PR → (Int → Bool) × List PR
  | [], st => st
  | pr :: rest, (seen, all) =>
    if !seen pr.Number then
      mergeLoop rest (fun k => if k = pr.Number then true else seen k, all ++ [pr])
    else mergeLoop rest (seen, all)

/-- Lines 162–177 of `FetchAll`: both loops, from the empty map and the nil
slice. -/
def mergeAll (pending reviewed : List PR) : List PR :=
  (mergeLoop reviewed (mergeLoop pending (fun _ => false, []))).2

/-- Go `FetchAll`. -/
def FetchAll (parse : String → Option Time) (w : World) : Except String (List PR) :=
  match FetchReviewRequests parse w with
  | .error err => .error err
  | .ok pending =>
    match FetchReviewed parse w with
    | .error err => .error err
    | .ok reviewed => .ok (mergeAll pending reviewed)

/-! ## `cmd/list.go` -/

/-- The `less` closure handed to `sort.Slice` (line 63), on the two elements
the indices select: `prs[i].CreatedAt.After(prs[j].CreatedAt)`. -/
def createdAfter (a b : PR) : Bool := After a.CreatedAt b.CreatedAt

/-- What Go's `sort` package requires of a `less` function: it is a strict
ordering, transitive, and so is its complement ("if both Less(i, j) and
Less(j, k) are false, then Less(i, k) must be false as well"). -/
structure LessOK {α : Type} (less : α → α → Bool) : Prop where
  irrefl : ∀ a, less a a = false
  trans : ∀ a b c, less a b = true → less b c = true → less a c = true
  negTrans : ∀ a b c, less a b = false → less b c = false → less a c = false

/-- The type of Go's `sort.Slice`, a function of the standard library: from a
`less` function and a slice to the slice as it is left. -/
def SortFn : Type 1 := (α : Type) → (α → α → Bool) → List α → List α

/-- The contract the documentation of `sort.Slice` gives: the slice is
rearranged (a permutation) so that, for a `less` meeting the requirements, no
element is `less` than one before it.  The documentation adds: "The sort is
not guaranteed to be stable: equal elements may be reversed from their
original order." -/
structure SliceContract (sort : SortFn) : Prop where
  perm : ∀ (α : Type) (less : α → α → Bool) (xs : List α), (sort α less xs).Perm xs
  sorted : ∀ (α : Type) (less : α → α → Bool) (xs : List α), LessOK less →
    (sort α less xs).Pairwise (fun a b => less b a = false)

/-- The sort step of the list command (lines 62–64). -/
def sortStep (sort : SortFn) (prs : List PR) : List PR :=
  sort PR createdAfter prs

/-- A sort that keeps equal elements in their input order: insertion sort. -/
def sortTiesKept : SortFn :=
  fun _ less xs => xs.insertionSort (fun a b => less b a = false)

/-- A sort that reverses equal elements: insertion sort of the reversed
slice. -/
def sortTiesReversed : SortFn :=
  fun _ less xs => xs.reverse.insertionSort (fun a b => less b a = false)

/-- The tie rule of the specification: among the PRs that share the `CreatedAt`
of any PR of the input, the output has the order of the input. -/
def KeepsTies (input output : List PR) : Prop :=
  ∀ pr ∈ input, output.filter (fun q => q.CreatedAt = pr.CreatedAt) =
    input.filter (fun q => q.CreatedAt = pr.CreatedAt)

instance (input output : List PR) : Decidable (KeepsTies input output) := by
  unfold KeepsTies
  infer_instance

/-- The local variables of `listCmd.Run` after the limit step (line 81). -/
structure Shown where
  totalCount : Int
  hasMore : Bool
  prs : List PR
deriving DecidableEq, Repr

/-- Lines 66 and 77–81 of `listCmd.Run`: `totalCount`, then the truncation
`prs = prs[:limitFlag]` when `limitFlag > 0 && len(prs) > limitFlag`. -/
def limitStep (limitFlag : Int) (prs : List PR) : Shown :=
  let totalCount : Int := prs.length
  if limitFlag > 0 ∧ (prs.length : Int) > limitFlag then
    { totalCount := totalCount, hasMore := true, prs := prs.take limitFlag.toNat }
  else
    { totalCount := totalCount, hasMore := false, prs := prs }

/-- What `listCmd.Run` writes: a line, the JSON document of a slice
(`output.JSON`) or the table of a slice (`output.Table`). -/
inductive Out where
  | text (s : String)
  | json (prs : List PR)
  | table (prs : List PR)
deriving DecidableEq, Repr

/-- Lines 66–93 of `listCmd.Run`, on the sorted slice. -/
def showStep (jsonFlag : Bool) (limitFlag : Int) (emptyMsg headerMsg : String)
    (prs : List PR) : List Out :=
  let totalCount : Int := prs.length
  if totalCount = 0 then
    if jsonFlag then [Out.text "[]\n"] else [Out.text (emptyMsg ++ "\n")]
  else
    let sh := limitStep limitFlag prs
    if jsonFlag then [Out.json sh.prs]
    else
      [ Out.text (headerMsg ++ "\n"),
        (if sh.hasMore then
          Out.text ("\nShowing " ++ toString limitFlag ++ " of " ++ toString totalCount
            ++ " PRs (use --limit to see more):\n\n")
        else
          Out.text ("\nFound " ++ toString totalCount ++ " PRs:\n\n")),
        Out.table sh.prs ]

/-! ## Auxiliary definitions -/

/-- The numbers of a slice of PRs, in order. -/
def numbers (prs : List PR) : List Int := prs.map (fun pr => pr.Number)

/-! ## The claims' own wording, for comparison with the code -/

/-- As the specification words it: the maximum parsed timestamp among the
reviews whose author is the current user, the zero time when there is none. -/
def claimedLastReviewTime (parse : String → Option Time) (currentUser : String)
    (reviews : List ReviewNode) : Time :=
  match (reviews.filter (fun r => r.AuthorLogin = currentUser)).filterMap
      (fun r => parse r.SubmittedAt) with
  | [] => zeroTime
  | t :: ts => ts.foldl max t

/-- As the specification words it: the number of commit timestamps strictly
after `claimedLastReviewTime`. -/
def claimedNewCommits (parse : String → Option Time) (currentUser : String)
    (node : ReviewedNode) : Int :=
  ((node.Commits.filter (fun c => After (parseOrZero parse c.CommittedDate)
    (claimedLastReviewTime parse currentUser node.Reviews))).length : Int)

/-- As the specification words it: the number of comment timestamps strictly
after `claimedLastReviewTime`. -/
def claimedNewComments (parse : String → Option Time) (currentUser : String)
    (node : ReviewedNode) : Int :=
  ((node.Comments.filter (fun c => After (parseOrZero parse c.CreatedAt)
    (claimedLastReviewTime parse currentUser node.Reviews))).length : Int)

/-- Whether a timestamp string parses to an instant strictly after the zero
time. -/
def parsesAfterZero (parse : String → Option Time) (s : String) : Bool :=
  match parse s with
  | some t => decide (zeroTime < t)
  | none => false

/-! ## Sample inputs -/

/-- A finite table of `time.Parse(time.RFC3339, ·)`: it gives the instant Go
gives on the listed strings (nanoseconds since `0001-01-01T00:00:00Z`) and a
parse error on every other string; it is used on the listed strings and on
strings that are not RFC 3339 only. -/
def sampleParse (s : String) : Option Time :=
  if s = "2024-05-01T11:00:00Z" then some 63850158000000000000
  else if s = "2024-05-01T12:00:00Z" then some 63850161600000000000
  else if s = "2024-05-01T13:00:00Z" then some 63850165200000000000
  else if s = "0001-01-01T00:00:00Z" then some 0
  else if s = "0001-01-01T00:00:00+01:00" then some (-3600000000000)
  else if s = "0001-01-01T00:00:00+02:00" then some (-7200000000000)
  else none

/-- A review-requested node for PR 7, with `alice` requested directly. -/
def pendingNode7 : SearchNode :=
  { Number := 7, Title := "Fix cache", URL := "https://github.com/acme/app/pull/7",
    IsDraft := false, CreatedAt := "2024-05-01T11:00:00Z", AuthorLogin := "bob",
    RepositoryName := "app", RepositoryOwnerLogin := "acme", Labels := [⟨"bug"⟩],
    ReviewRequests := [⟨"alice"⟩] }

/-- A reviewed node for the same PR 7, with two comments and no review of
`alice` among the last reviews. -/
def reviewedNode7 : ReviewedNode :=
  { Number := 7, Title := "Fix cache", URL := "https://github.com/acme/app/pull/7",
    IsDraft := false, CreatedAt := "2024-05-01T11:00:00Z", AuthorLogin := "bob",
    RepositoryName := "app", RepositoryOwnerLogin := "acme", Labels := [⟨"bug"⟩],
    Reviews := [], Commits := [],
    Comments := [⟨"2024-05-01T12:00:00Z"⟩, ⟨"2024-05-01T13:00:00Z"⟩] }

/-- A world in which both queries return PR 7. -/
def world7 : World :=
  { pendingUser := .ok "alice", pendingResp := .decoded [pendingNode7],
    reviewedUser := .ok "alice", reviewedResp := .decoded [reviewedNode7] }

/-- PR 7 as `fetchPRs` builds it from `pendingNode7`. -/
def pr7 : PR :=
  { Number := 7, Title := "Fix cache", URL := "https://github.com/acme/app/pull/7",
    Author := "bob", Repo := "app", Owner := "acme", CreatedAt := 63850158000000000000,
    IsDraft := false, Labels := ["bug"], Activity := "" }

/-- PR 5: `alice` reviewed it at 12:00 (and `carol` at 13:00); one commit an
hour after the review of `alice`, one comment an hour before it. -/
def reviewedNode5 : ReviewedNode :=
  { Number := 5, Title := "Add retry", URL := "https://github.com/acme/app/pull/5",
    IsDraft := false, CreatedAt := "2024-05-01T11:00:00Z", AuthorLogin := "bob",
    RepositoryName := "app", RepositoryOwnerLogin := "acme", Labels := [],
    Reviews := [⟨"alice", "2024-05-01T12:00:00Z"⟩, ⟨"carol", "2024-05-01T13:00:00Z"⟩],
    Commits := [⟨"2024-05-01T13:00:00Z"⟩],
    Comments := [⟨"2024-05-01T11:00:00Z"⟩] }

/-- A node whose review lies before the zero time: the review of `alice` is two
hours before it, the commit one hour before it and the comment at it (both
after the review). -/
def earlyNode : ReviewedNode :=
  { Number := 8, Title := "Old", URL := "https://github.com/acme/app/pull/8",
    IsDraft := false, CreatedAt := "0001-01-01T00:00:00Z", AuthorLogin := "bob",
    RepositoryName := "app", RepositoryOwnerLogin := "acme", Labels := [],
    Reviews := [⟨"alice", "0001-01-01T00:00:00+02:00"⟩],
    Commits := [⟨"0001-01-01T00:00:00+01:00"⟩],
    Comments := [⟨"0001-01-01T00:00:00Z"⟩] }

/-- A node without reviews whose only commit and only comment carry
timestamps that do not parse. -/
def corruptNode : ReviewedNode :=
  { Number := 9, Title := "Corrupt", URL := "https://github.com/acme/app/pull/9",
    IsDraft := false, CreatedAt := "2024-05-01T11:00:00Z", AuthorLogin := "bob",
    RepositoryName := "app", RepositoryOwnerLogin := "acme", Labels := [],
    Reviews := [], Commits := [⟨"not-a-date"⟩], Comments := [⟨""⟩] }

/-- A review-requested node for PR 3 whose only review request is addressed to
a team: `requestedReviewer` decodes without a login. -/
def teamNode : SearchNode :=
  { Number := 3, Title := "Bump deps", URL := "https://github.com/acme/app/pull/3",
    IsDraft := false, CreatedAt := "2024-05-01T12:00:00Z", AuthorLogin := "dependabot",
    RepositoryName := "app", RepositoryOwnerLogin := "acme", Labels := [],
    ReviewRequests := [⟨""⟩] }

/-- A review-requested node without `number`, `title` and `url`: they decode
as `0` and the empty string.  `alice` is requested directly. -/
def blankNode : SearchNode :=
  { Number := 0, Title := "", URL := "",
    IsDraft := false, CreatedAt := "2024-05-01T12:00:00Z", AuthorLogin := "bob",
    RepositoryName := "app", RepositoryOwnerLogin := "acme", Labels := [],
    ReviewRequests := [⟨"alice"⟩] }

/-- A reviewed node without `number`, `title` and `url`. -/
def blankReviewedNode : ReviewedNode :=
  { Number := 0, Title := "", URL := "",
    IsDraft := false, CreatedAt := "2024-05-01T12:00:00Z", AuthorLogin := "bob",
    RepositoryName := "app", RepositoryOwnerLogin := "acme", Labels := [],
    Reviews := [], Commits := [], Comments := [] }

/-- The PR built from a node without `number`, `title` and `url`. -/
def blankPR : PR :=
  { Number := 0, Title := "", URL := "", Author := "bob", Repo := "app", Owner := "acme",
    CreatedAt := 63850161600000000000, IsDraft := false, Labels := [], Activity := "" }

/-- A world whose two responses each hold a node without the required fields
next to PR 7. -/
def blankWorld : World :=
  { pendingUser := .ok "alice", pendingResp := .decoded [blankNode, pendingNode7],
    reviewedUser := .ok "alice", reviewedResp := .decoded [blankReviewedNode, reviewedNode7] }

/-- Thirteen PRs: the PRs 1 to 12, all created at 11:00, followed by PR 13,
created at 13:00. -/
def tiedPRs : List PR :=
  [1, 2, 3, 4, 5, 6, 7, 8, 9, 10, 11, 12].map (fun n => { pr7 with Number := n }) ++
    [{ pr7 with Number := 13, CreatedAt := 63850165200000000000 }]

/-! # Theorems -/

/-! ## The merge of `FetchAll` -/

/-- Running a merge loop over `xs ++ ys` is running it over `xs`, then over
`ys` from the state reached. -/
theorem mergeLoop_append (xs ys : List PR) (st : (Int → Bool) × List PR) :
    mergeLoop (xs ++ ys) st = mergeLoop ys (mergeLoop xs st) := by
  induction xs generalizing st with
  | nil => rfl
  | cons x rest ih =>
    obtain ⟨seen, all⟩ := st
    simp only [List.cons_append, mergeLoop]
    split <;> exact ih _

/-- The two loops of `FetchAll` are one loop over `pending ++ reviewed`. -/
theorem mergeAll_eq (pending reviewed : List PR) :
    mergeAll pending reviewed = (mergeLoop (pending ++ reviewed) (fun _ => false, [])).2 := by
  simp [mergeAll, mergeLoop_append]

/-- What a merge loop does from a state whose map `seen` holds exactly the
numbers of `all`: it appends to `all` a subsequence `suf` of its input, with
distinct numbers, none of them in `all`, each entry being the first of its
number in the input, and every number of the input is in `all` or in `suf`. -/
theorem mergeLoop_spec (xs : List PR) :
    ∀ (seen : Int → Bool) (all : List PR),
      (∀ k, seen k = true ↔ k ∈ numbers all) →
      ∃ suf, (mergeLoop xs (seen, all)).2 = all ++ suf ∧ suf.Sublist xs ∧
        (numbers suf).Nodup ∧
        (∀ pr ∈ suf, pr.Number ∉ numbers all ∧
          xs.find? (fun q => q.Number == pr.Number) = some pr) ∧
        (∀ k ∈ numbers xs, k ∈ numbers all ∨ k ∈ numbers suf) := by
  induction xs with
  | nil =>
    intro seen all _
    exact ⟨[], by simp [mergeLoop], List.Sublist.refl _, by simp [numbers], by simp,
      by simp [numbers]⟩
  | cons x rest ih =>
    intro seen all hseen
    by_cases hx : seen x.Number = true
    · have hxall : x.Number ∈ numbers all := (hseen _).1 hx
      obtain ⟨suf, h1, h2, h3, h4, h5⟩ := ih seen all hseen
      refine ⟨suf, ?_, h2.cons _, h3, ?_, ?_⟩
      · simp only [mergeLoop, hx]
        simpa using h1
      · intro pr hpr
        obtain ⟨ha, hf⟩ := h4 pr hpr
        refine ⟨ha, ?_⟩
        have hne : x.Number ≠ pr.Number := fun h => ha (h ▸ hxall)
        rw [List.find?_cons_of_neg]
        · exact hf
        · simpa using hne
      · intro k hk
        simp only [numbers, List.map_cons, List.mem_cons] at hk
        rcases hk with hk | hk
        · exact Or.inl (hk ▸ hxall)
        · exact h5 k hk
    · have hxall : x.Number ∉ numbers all := fun h => hx ((hseen _).2 h)
      have hseen2 : ∀ k, (if k = x.Number then true else seen k) = true ↔
          k ∈ numbers (all ++ [x]) := by
        intro k
        by_cases hk : k = x.Number
        · simp [hk, numbers]
        · simp [hk, numbers, hseen k]
      obtain ⟨suf, h1, h2, h3, h4, h5⟩ :=
        ih (fun k => if k = x.Number then true else seen k) (all ++ [x]) hseen2
      have hxs : x.Number ∉ numbers suf := by
        intro hmem
        obtain ⟨pr, hpr, hnum⟩ := List.mem_map.1 hmem
        exact (h4 pr hpr).1 (by simp [numbers, hnum])
      refine ⟨x :: suf, ?_, h2.cons₂ _, ?_, ?_, ?_⟩
      · have hx2 : seen x.Number = false := by simpa using hx
        simp only [mergeLoop, hx2]
        simpa using h1
      · simp only [numbers, List.map_cons, List.nodup_cons]
        exact ⟨hxs, h3⟩
      · intro pr hpr
        rcases List.mem_cons.1 hpr with rfl | hpr
        · exact ⟨hxall, by simp⟩
        · obtain ⟨ha, hf⟩ := h4 pr hpr
          have ha1 : pr.Number ∉ numbers all := fun h => ha (by
            simp only [numbers, List.map_append, List.mem_append]; exact Or.inl h)
          have hne : x.Number ≠ pr.Number := fun h => ha (by simp [numbers, h])
          refine ⟨ha1, ?_⟩
          rw [List.find?_cons_of_neg]
          · exact hf
          · simpa using hne
      · intro k hk
        simp only [numbers, List.map_cons, List.mem_cons] at hk
        rcases hk with hk | hk
        · exact Or.inr (by simp [numbers, hk])
        · rcases h5 k hk with h | h
          · simp only [numbers, List.map_append, List.mem_append, List.map_cons, List.map_nil,
              List.mem_singleton] at h
            rcases h with h | h
            · exact Or.inl h
            · exact Or.inr (by simp [numbers, h])
          · exact Or.inr (by
              simp only [numbers, List.map_cons, List.mem_cons]; exact Or.inr h)

/-- Both fetches succeeding, `FetchAll` returns the merge of their results. -/
theorem FetchAll_ok (parse : String → Option Time) (w : World) (pending reviewed : List PR)
    (hp : FetchReviewRequests parse w = .ok pending)
    (hr : FetchReviewed parse w = .ok reviewed) :
    FetchAll parse w = .ok (mergeAll pending reviewed) := by
  simp [FetchAll, hp, hr]

/-- The merge is a subsequence of `pending ++ reviewed` with distinct numbers,
each entry the first of its number, and every number of the input kept. -/
theorem mergeAll_spec (pending reviewed : List PR) :
    (mergeAll pending reviewed).Sublist (pending ++ reviewed) ∧
    (numbers (mergeAll pending reviewed)).Nodup ∧
    (∀ pr ∈ mergeAll pending reviewed,
      (pending ++ reviewed).find? (fun q => q.Number == pr.Number) = some pr) ∧
    (∀ k ∈ numbers (pending ++ reviewed), k ∈ numbers (mergeAll pending reviewed)) := by
  obtain ⟨suf, h1, h2, h3, h4, h5⟩ :=
    mergeLoop_spec (pending ++ reviewed) (fun _ => false) [] (by simp [numbers])
  rw [mergeAll_eq, h1]
  simp only [List.nil_append]
  refine ⟨h2, h3, fun pr hpr => (h4 pr hpr).2, fun k hk => ?_⟩
  rcases h5 k hk with h | h
  · simp [numbers] at h
  · exact h

/-- A `find?` by number over `pending ++ reviewed` is decided in `pending`
when `pending` has the number. -/
theorem find_append_of_mem (pending reviewed : List PR) (n : Int) (pr : PR)
    (hn : n ∈ numbers pending)
    (hf : (pending ++ reviewed).find? (fun q => q.Number == n) = some pr) :
    pending.find? (fun q => q.Number == n) = some pr := by
  obtain ⟨q, hq, hqn⟩ := List.mem_map.1 hn
  rw [List.find?_append] at hf
  cases hfp : pending.find? (fun q => q.Number == n) with
  | none =>
    have := List.find?_eq_none.1 hfp q hq
    simp [hqn] at this
  | some r =>
    rw [hfp] at hf
    simpa using hf

/-- C1. For every `pending` and `reviewed`, the merge of `FetchAll` is a
subsequence of `pending ++ reviewed` in which every number occurring in
`pending` or `reviewed` occurs exactly once and no other number occurs; the
entry kept for a number is the first entry with that number in `pending`
followed by `reviewed`; for a number that `pending` has, the kept entry is the
first entry of `pending` with that number. -/
theorem FetchAll_merge_first_seen_wins (pending reviewed : List PR) :
    (mergeAll pending reviewed).Sublist (pending ++ reviewed) ∧
    (∀ n, n ∈ numbers pending ∨ n ∈ numbers reviewed →
      (numbers (mergeAll pending reviewed)).count n = 1) ∧
    (∀ n, n ∈ numbers (mergeAll pending reviewed) →
      n ∈ numbers pending ∨ n ∈ numbers reviewed) ∧
    (∀ pr, pr ∈ mergeAll pending reviewed →
      (pending ++ reviewed).find? (fun q => q.Number == pr.Number) = some pr) ∧
    (∀ pr, pr ∈ mergeAll pending reviewed → pr.Number ∈ numbers pending →
      pr ∈ pending ∧ pending.find? (fun q => q.Number == pr.Number) = some pr) := by
  obtain ⟨h1, h2, h3, h4⟩ := mergeAll_spec pending reviewed
  refine ⟨h1, ?_, ?_, h3, ?_⟩
  · intro n hn
    apply List.count_eq_one_of_mem h2
    apply h4
    simpa [numbers] using hn
  · intro n hn
    have := (h1.map (fun pr => pr.Number)).subset hn
    simpa [numbers] using this
  · intro pr hpr hn
    have hf := find_append_of_mem pending reviewed pr.Number pr hn (h3 pr hpr)
    exact ⟨List.mem_of_find?_eq_some hf, hf⟩

/-- C1 on a pending class with PR 7 and PR 9 and a reviewed class with PR 7
(carrying an activity) and PR 8: one entry per number, PR 7 from the pending
class. -/
theorem FetchAll_merge_first_seen_wins_witness :
    mergeAll [pr7, { pr7 with Number := 9 }]
        [{ pr7 with Activity := "2 comments" }, { pr7 with Number := 8 }] =
      [pr7, { pr7 with Number := 9 }, { pr7 with Number := 8 }] ∧
    (numbers (mergeAll [pr7, { pr7 with Number := 9 }]
        [{ pr7 with Activity := "2 comments" }, { pr7 with Number := 8 }])).count 7 = 1 :=
  ⟨by decide,
    (FetchAll_merge_first_seen_wins [pr7, { pr7 with Number := 9 }]
      [{ pr7 with Activity := "2 comments" }, { pr7 with Number := 8 }]).2.1 7
        (Or.inl (by decide))⟩

/-! ## The node loops -/

/-- The node loop of `fetchPRs` appends, in input order, the PRs of the nodes
that pass the reviewer test (every node when the test is off). -/
theorem fetchPRsLoop_eq (parse : String → Option Time) (flt : Bool) (currentUser : String)
    (nodes : List SearchNode) (prs : List PR) :
    fetchPRsLoop parse flt currentUser nodes prs =
      prs ++ (nodes.filter
        (fun node => !flt || isDirectReviewer currentUser node.ReviewRequests)).map
          (searchNodePR parse) := by
  induction nodes generalizing prs with
  | nil => simp [fetchPRsLoop]
  | cons node rest ih =>
    cases flt <;> cases hd : isDirectReviewer currentUser node.ReviewRequests <;>
      simp [fetchPRsLoop, hd, ih]

/-- The node loop of `FetchReviewed` appends one PR per node, in input order. -/
theorem FetchReviewedLoop_eq (parse : String → Option Time) (currentUser : String)
    (nodes : List ReviewedNode) (prs : List PR) :
    FetchReviewedLoop parse currentUser nodes prs =
      prs ++ nodes.map (reviewedNodePR parse currentUser) := by
  induction nodes generalizing prs with
  | nil => simp [FetchReviewedLoop]
  | cons node rest ih => simp [FetchReviewedLoop, ih]

/-- Every PR `fetchPRs` returns has the empty `Activity`. -/
theorem fetchPRs_activity (parse : String → Option Time) (user : Except String String)
    (resp : GhResult (List SearchNode)) (flt : Bool) (prs : List PR)
    (h : fetchPRs parse user resp flt = .ok prs) : ∀ pr ∈ prs, pr.Activity = "" := by
  intro pr hpr
  have key : ∀ (cu : String) (nodes : List SearchNode),
      prs = fetchPRsLoop parse flt cu nodes [] → pr.Activity = "" := by
    intro cu nodes hprs
    rw [hprs, fetchPRsLoop_eq] at hpr
    simp only [List.nil_append, List.mem_map] at hpr
    obtain ⟨node, _, rfl⟩ := hpr
    rfl
  cases flt <;> cases user <;> cases resp <;> simp [fetchPRs] at h <;>
    exact key _ _ h.symm

/-! ## Overlap of the two classes -/

/-- C2. Both fetches succeeding, `FetchAll` returns the merge of their results,
and for every number that occurs both in the result of `FetchReviewRequests`
and in the result of `FetchReviewed`, the merge has an entry with that number
and every such entry has the empty `Activity`. -/
theorem FetchAll_overlap_has_no_activity (parse : String → Option Time) (w : World)
    (pending reviewed : List PR)
    (hp : FetchReviewRequests parse w = .ok pending)
    (hr : FetchReviewed parse w = .ok reviewed) :
    FetchAll parse w = .ok (mergeAll pending reviewed) ∧
    ∀ n, n ∈ numbers pending → n ∈ numbers reviewed →
      (∃ pr, pr ∈ mergeAll pending reviewed ∧ pr.Number = n) ∧
      ∀ pr, pr ∈ mergeAll pending reviewed → pr.Number = n → pr.Activity = "" := by
  refine ⟨FetchAll_ok parse w pending reviewed hp hr, ?_⟩
  intro n hnp _
  obtain ⟨_, _, h3, h4⟩ := mergeAll_spec pending reviewed
  constructor
  · have hk : n ∈ numbers (mergeAll pending reviewed) :=
      h4 n (by simp only [numbers, List.map_append, List.mem_append]; exact Or.inl hnp)
    obtain ⟨pr, hpr, hnum⟩ := List.mem_map.1 hk
    exact ⟨pr, hpr, hnum⟩
  · intro pr hpr hnum
    have hf := find_append_of_mem pending reviewed pr.Number pr (hnum ▸ hnp) (h3 pr hpr)
    exact fetchPRs_activity parse w.pendingUser w.pendingResp true pending hp pr
      (List.mem_of_find?_eq_some hf)

/-- C2 at PR 7: the reviewed-class entry carries "2 comments", the entry of
`FetchAll` carries no activity. -/
theorem FetchAll_overlap_has_no_activity_witness :
    FetchReviewRequests sampleParse world7 = .ok [pr7] ∧
    FetchReviewed sampleParse world7 = .ok [{ pr7 with Activity := "2 comments" }] ∧
    FetchAll sampleParse world7 = .ok [pr7] ∧
    ∀ pr, pr ∈ mergeAll [pr7] [{ pr7 with Activity := "2 comments" }] → pr.Number = 7 →
      pr.Activity = "" :=
  ⟨rfl, rfl,
    (FetchAll_overlap_has_no_activity sampleParse world7 [pr7]
      [{ pr7 with Activity := "2 comments" }] rfl rfl).1,
    ((FetchAll_overlap_has_no_activity sampleParse world7 [pr7]
      [{ pr7 with Activity := "2 comments" }] rfl rfl).2 7 (by decide) (by decide)).2⟩

/-! ## Activity since the last review -/

/-- `lastReviewTime` never goes below its starting value. -/
theorem lastReviewTimeLoop_ge (parse : String → Option Time) (currentUser : String)
    (reviews : List ReviewNode) (t0 : Time) :
    t0 ≤ lastReviewTimeLoop parse currentUser reviews t0 := by
  induction reviews generalizing t0 with
  | nil => simp [lastReviewTimeLoop]
  | cons r rest ih =>
    simp only [lastReviewTimeLoop]
    split
    · split
      · rename_i h
        have h1 : t0 < parseOrZero parse r.SubmittedAt := by simpa [After] using h
        exact le_trans (le_of_lt h1) (ih _)
      · exact ih _
    · exact ih _

/-- `lastReviewTime` is never before the zero time. -/
theorem lastReviewTime_nonneg (parse : String → Option Time) (currentUser : String)
    (reviews : List ReviewNode) : zeroTime ≤ lastReviewTime parse currentUser reviews :=
  lastReviewTimeLoop_ge parse currentUser reviews zeroTime

/-- Folding `max` from `max a b` is taking `max a` of the fold from `b`. -/
theorem foldl_max_max (l : List Time) (a b : Time) :
    l.foldl max (max a b) = max a (l.foldl max b) := by
  induction l generalizing b with
  | nil => rfl
  | cons x rest ih => simp only [List.foldl_cons, max_assoc, ih]

/-- From a starting value not before the zero time, the review loop folds `max`
over the timestamps that parse among the reviews of the current user. -/
theorem lastReviewTimeLoop_eq (parse : String → Option Time) (currentUser : String)
    (reviews : List ReviewNode) (t0 : Time) (h0 : zeroTime ≤ t0) :
    lastReviewTimeLoop parse currentUser reviews t0 =
      ((reviews.filter (fun r => r.AuthorLogin = currentUser)).filterMap
        (fun r => parse r.SubmittedAt)).foldl max t0 := by
  induction reviews generalizing t0 with
  | nil => simp [lastReviewTimeLoop]
  | cons r rest ih =>
    simp only [lastReviewTimeLoop]
    by_cases hu : r.AuthorLogin = currentUser
    · simp only [hu, if_true, decide_True, List.filter_cons_of_pos]
      cases hp : parse r.SubmittedAt with
      | none =>
        have hz : parseOrZero parse r.SubmittedAt = zeroTime := by simp [parseOrZero, hp]
        have hna : After zeroTime t0 = false := by simpa [After] using h0
        rw [hz, hna]
        simp only [List.filterMap_cons, hp]
        simpa using ih t0 h0
      | some t =>
        have hz : parseOrZero parse r.SubmittedAt = t := by simp [parseOrZero, hp]
        rw [hz]
        simp only [List.filterMap_cons, hp, List.foldl_cons]
        by_cases hlt : t0 < t
        · have ha : After t t0 = true := by simpa [After] using hlt
          rw [ha, if_pos rfl, max_eq_right (le_of_lt hlt)]
          exact ih t (le_trans h0 (le_of_lt hlt))
        · have ha : After t t0 = false := by simpa [After] using hlt
          rw [ha, max_eq_left (not_lt.1 hlt)]
          simpa using ih t0 h0
    · simp only [hu, if_false, decide_False]
      rw [List.filter_cons_of_neg (by simpa using hu)]
      exact ih t0 h0

/-- The code's `lastReviewTime` is the larger of the zero time and the value
the specification words. -/
theorem lastReviewTime_eq_max (parse : String → Option Time) (currentUser : String)
    (reviews : List ReviewNode) :
    lastReviewTime parse currentUser reviews =
      max zeroTime (claimedLastReviewTime parse currentUser reviews) := by
  rw [lastReviewTime, lastReviewTimeLoop_eq parse currentUser reviews zeroTime (le_refl _),
    claimedLastReviewTime]
  cases (reviews.filter (fun r => r.AuthorLogin = currentUser)).filterMap
      (fun r => parse r.SubmittedAt) with
  | nil => simp
  | cons t ts =>
    simp only [List.foldl_cons]
    exact foldl_max_max ts zeroTime t

/-- Reviews by other authors are skipped by the review loop. -/
theorem lastReviewTimeLoop_filter (parse : String → Option Time) (currentUser : String)
    (reviews : List ReviewNode) (t0 : Time) :
    lastReviewTimeLoop parse currentUser
        (reviews.filter (fun r => r.AuthorLogin = currentUser)) t0 =
      lastReviewTimeLoop parse currentUser reviews t0 := by
  induction reviews generalizing t0 with
  | nil => rfl
  | cons r rest ih =>
    by_cases hu : r.AuthorLogin = currentUser
    · rw [List.filter_cons_of_pos (by simpa using hu)]
      simp only [lastReviewTimeLoop, hu, if_true]
      split <;> exact ih _
    · rw [List.filter_cons_of_neg (by simpa using hu)]
      simp only [lastReviewTimeLoop, hu, if_false]
      exact ih _

/-- The commit loop adds to its counter the number of commits whose timestamp
is after `last`. -/
theorem newCommitsLoop_eq (parse : String → Option Time) (last : Time)
    (commits : List CommitNode) (n : Int) :
    newCommitsLoop parse last commits n =
      n + ((commits.filter (fun c => After (parseOrZero parse c.CommittedDate) last)).length :
        Int) := by
  induction commits generalizing n with
  | nil => simp [newCommitsLoop]
  | cons c rest ih =>
    simp only [newCommitsLoop]
    cases h : After (parseOrZero parse c.CommittedDate) last
    · simp [h, ih]
    · simp only [if_true, ih, List.filter_cons, h, List.length_cons]
      push_cast
      ring

/-- The comment loop adds to its counter the number of comments whose timestamp
is after `last`. -/
theorem newCommentsLoop_eq (parse : String → Option Time) (last : Time)
    (comments : List CommentNode) (n : Int) :
    newCommentsLoop parse last comments n =
      n + ((comments.filter (fun c => After (parseOrZero parse c.CreatedAt) last)).length :
        Int) := by
  induction comments generalizing n with
  | nil => simp [newCommentsLoop]
  | cons c rest ih =>
    simp only [newCommentsLoop]
    cases h : After (parseOrZero parse c.CreatedAt) last
    · simp [h, ih]
    · simp only [if_true, ih, List.filter_cons, h, List.length_cons]
      push_cast
      ring

/-- `newCommits` is the number of commits after `lastReviewTime`. -/
theorem newCommits_eq (parse : String → Option Time) (currentUser : String)
    (node : ReviewedNode) :
    newCommits parse currentUser node =
      ((node.Commits.filter (fun c => After (parseOrZero parse c.CommittedDate)
        (lastReviewTime parse currentUser node.Reviews))).length : Int) := by
  simp [newCommits, newCommitsLoop_eq]

/-- `newComments` is the number of comments after `lastReviewTime`. -/
theorem newComments_eq (parse : String → Option Time) (currentUser : String)
    (node : ReviewedNode) :
    newComments parse currentUser node =
      ((node.Comments.filter (fun c => After (parseOrZero parse c.CreatedAt)
        (lastReviewTime parse currentUser node.Reviews))).length : Int) := by
  simp [newComments, newCommentsLoop_eq]

/-- A timestamp that does not parse is not after any `lastReviewTime`. -/
theorem unparsable_not_after (parse : String → Option Time) (currentUser : String)
    (reviews : List ReviewNode) (s : String) (hs : parse s = none) :
    After (parseOrZero parse s) (lastReviewTime parse currentUser reviews) = false := by
  have h := lastReviewTime_nonneg parse currentUser reviews
  simp only [parseOrZero, hs, After, decide_eq_false_iff_not, not_lt]
  exact h

/-- Against the zero time, "after" is "parses to an instant after the zero
time". -/
theorem after_zero_eq (parse : String → Option Time) (s : String) :
    After (parseOrZero parse s) zeroTime = parsesAfterZero parse s := by
  cases h : parse s <;> simp [After, parseOrZero, parsesAfterZero, h, zeroTime]

/-- C3, amended. For every node and current user: `lastReviewTime` is the
larger of the zero time and the maximum parsed timestamp among the reviews of
the current user (so it is that maximum whenever the maximum is not before the
zero time, and the zero time when no review of the user parses); `newCommits`
and `newComments` are the numbers of commit and comment timestamps strictly
after `lastReviewTime`; and dropping the reviews of other authors changes
neither count. -/
theorem FetchReviewed_counts_since_last_review (parse : String → Option Time)
    (currentUser : String) (node : ReviewedNode) :
    lastReviewTime parse currentUser node.Reviews =
      max zeroTime (claimedLastReviewTime parse currentUser node.Reviews) ∧
    (zeroTime ≤ claimedLastReviewTime parse currentUser node.Reviews →
      lastReviewTime parse currentUser node.Reviews =
          claimedLastReviewTime parse currentUser node.Reviews ∧
        newCommits parse currentUser node = claimedNewCommits parse currentUser node ∧
        newComments parse currentUser node = claimedNewComments parse currentUser node) ∧
    newCommits parse currentUser node =
      ((node.Commits.filter (fun c => After (parseOrZero parse c.CommittedDate)
        (lastReviewTime parse currentUser node.Reviews))).length : Int) ∧
    newComments parse currentUser node =
      ((node.Comments.filter (fun c => After (parseOrZero parse c.CreatedAt)
        (lastReviewTime parse currentUser node.Reviews))).length : Int) ∧
    newCommits parse currentUser
        { node with Reviews := node.Reviews.filter (fun r => r.AuthorLogin = currentUser) } =
      newCommits parse currentUser node ∧
    newComments parse currentUser
        { node with Reviews := node.Reviews.filter (fun r => r.AuthorLogin = currentUser) } =
      newComments parse currentUser node := by
  have hmax := lastReviewTime_eq_max parse currentUser node.Reviews
  have hflt : lastReviewTime parse currentUser
      (node.Reviews.filter (fun r => r.AuthorLogin = currentUser)) =
      lastReviewTime parse currentUser node.Reviews :=
    lastReviewTimeLoop_filter parse currentUser node.Reviews zeroTime
  refine ⟨hmax, ?_, newCommits_eq parse currentUser node, newComments_eq parse currentUser node,
    ?_, ?_⟩
  · intro h
    have heq : lastReviewTime parse currentUser node.Reviews =
        claimedLastReviewTime parse currentUser node.Reviews := by
      rw [hmax, max_eq_right h]
    exact ⟨heq, by rw [newCommits_eq, claimedNewCommits, heq],
      by rw [newComments_eq, claimedNewComments, heq]⟩
  · simp only [newCommits, hflt]
  · simp only [newComments, hflt]

/-- C3 at PR 5: self-review at T0, one commit at T0+1h, one comment at T0-1h
give one new commit, no new comment and the activity "1 commits". -/
theorem FetchReviewed_counts_since_last_review_witness :
    newCommits sampleParse "alice" reviewedNode5 = 1 ∧
    newComments sampleParse "alice" reviewedNode5 = 0 ∧
    (reviewedNodePR sampleParse "alice" reviewedNode5).Activity = "1 commits" :=
  ⟨(FetchReviewed_counts_since_last_review sampleParse "alice" reviewedNode5).2.2.1.trans
      (by decide),
    (FetchReviewed_counts_since_last_review sampleParse "alice" reviewedNode5).2.2.2.1.trans
      (by decide),
    by decide⟩

/-- C3 as worded fails when the reviews of the user all lie before the zero
time: on `earlyNode` the maximum parsed review timestamp is two hours before
the zero time, and one commit and one comment are after it, while the code
keeps the zero time and counts no commit and no comment. -/
theorem claimed_lastReviewTime_fails_before_zero :
    claimedLastReviewTime sampleParse "alice" earlyNode.Reviews = -7200000000000 ∧
    lastReviewTime sampleParse "alice" earlyNode.Reviews = zeroTime ∧
    claimedNewCommits sampleParse "alice" earlyNode = 1 ∧
    newCommits sampleParse "alice" earlyNode = 0 ∧
    claimedNewComments sampleParse "alice" earlyNode = 1 ∧
    newComments sampleParse "alice" earlyNode = 0 := by
  decide

/-- C4. For every node, current user and reviews: a commit whose timestamp does
not parse leaves `newCommits` what it is without that commit, a comment whose
timestamp does not parse leaves `newComments` what it is without that comment,
and in both cases the PR built for the node is the same. -/
theorem FetchReviewed_unparsable_never_counts (parse : String → Option Time)
    (currentUser : String) (node : ReviewedNode) :
    (∀ (pre post : List CommitNode) (c : CommitNode), parse c.CommittedDate = none →
      newCommits parse currentUser { node with Commits := pre ++ c :: post } =
        newCommits parse currentUser { node with Commits := pre ++ post } ∧
      reviewedNodePR parse currentUser { node with Commits := pre ++ c :: post } =
        reviewedNodePR parse currentUser { node with Commits := pre ++ post }) ∧
    (∀ (pre post : List CommentNode) (c : CommentNode), parse c.CreatedAt = none →
      newComments parse currentUser { node with Comments := pre ++ c :: post } =
        newComments parse currentUser { node with Comments := pre ++ post } ∧
      reviewedNodePR parse currentUser { node with Comments := pre ++ c :: post } =
        reviewedNodePR parse currentUser { node with Comments := pre ++ post }) := by
  constructor
  · intro pre post c hc
    have hna := unparsable_not_after parse currentUser node.Reviews c.CommittedDate hc
    have h1 : newCommits parse currentUser { node with Commits := pre ++ c :: post } =
        newCommits parse currentUser { node with Commits := pre ++ post } := by
      simp [newCommits_eq, List.filter_append, List.filter_cons, hna]
    exact ⟨h1, by simp only [reviewedNodePR, h1, newComments]⟩
  · intro pre post c hc
    have hna := unparsable_not_after parse currentUser node.Reviews c.CreatedAt hc
    have h1 : newComments parse currentUser { node with Comments := pre ++ c :: post } =
        newComments parse currentUser { node with Comments := pre ++ post } := by
      simp [newComments_eq, List.filter_append, List.filter_cons, hna]
    exact ⟨h1, by simp only [reviewedNodePR, h1, newCommits]⟩

/-- C4 at `corruptNode`, which has no review: its commit and its comment do not
parse, and the counts are those of the node without them, zero. -/
theorem FetchReviewed_unparsable_never_counts_witness :
    newCommits sampleParse "alice" corruptNode = 0 ∧
    newComments sampleParse "alice" corruptNode = 0 :=
  ⟨(((FetchReviewed_unparsable_never_counts sampleParse "alice" corruptNode).1
      [] [] ⟨"not-a-date"⟩ (by decide)).1).trans (by decide),
    (((FetchReviewed_unparsable_never_counts sampleParse "alice" corruptNode).2
      [] [] ⟨""⟩ (by decide)).1).trans (by decide)⟩

/-- C5 as worded fails: `corruptNode` has no review, so `lastReviewTime` is the
zero time, and it has one commit and one comment, yet both counts are zero. -/
theorem zero_lastReviewTime_excludes_unparsable :
    lastReviewTime sampleParse "alice" corruptNode.Reviews = zeroTime ∧
    corruptNode.Commits.length = 1 ∧ newCommits sampleParse "alice" corruptNode = 0 ∧
    corruptNode.Comments.length = 1 ∧ newComments sampleParse "alice" corruptNode = 0 ∧
    ¬ (∀ (parse : String → Option Time) (currentUser : String) (node : ReviewedNode),
      lastReviewTime parse currentUser node.Reviews = zeroTime →
        newCommits parse currentUser node = (node.Commits.length : Int) ∧
        newComments parse currentUser node = (node.Comments.length : Int)) := by
  refine ⟨by decide, by decide, by decide, by decide, by decide, fun h => ?_⟩
  exact absurd (h sampleParse "alice" corruptNode (by decide)).1 (by decide)

/-- C5, amended. If `lastReviewTime` is the zero time, `newCommits` is the
number of commits whose timestamp parses to an instant after the zero time,
and `newComments` the number of such comments; they are the full numbers of
commits and of comments when every timestamp parses to such an instant. -/
theorem FetchReviewed_counts_at_zero_lastReviewTime (parse : String → Option Time)
    (currentUser : String) (node : ReviewedNode)
    (h : lastReviewTime parse currentUser node.Reviews = zeroTime) :
    newCommits parse currentUser node =
      ((node.Commits.filter (fun c => parsesAfterZero parse c.CommittedDate)).length : Int) ∧
    newComments parse currentUser node =
      ((node.Comments.filter (fun c => parsesAfterZero parse c.CreatedAt)).length : Int) ∧
    ((∀ c ∈ node.Commits, parsesAfterZero parse c.CommittedDate = true) →
      newCommits parse currentUser node = (node.Commits.length : Int)) ∧
    ((∀ c ∈ node.Comments, parsesAfterZero parse c.CreatedAt = true) →
      newComments parse currentUser node = (node.Comments.length : Int)) := by
  have hc : newCommits parse currentUser node =
      ((node.Commits.filter (fun c => parsesAfterZero parse c.CommittedDate)).length : Int) := by
    rw [newCommits_eq, h]
    simp only [after_zero_eq]
  have hm : newComments parse currentUser node =
      ((node.Comments.filter (fun c => parsesAfterZero parse c.CreatedAt)).length : Int) := by
    rw [newComments_eq, h]
    simp only [after_zero_eq]
  refine ⟨hc, hm, ?_, ?_⟩
  · intro hall
    rw [hc, List.filter_eq_self.2 hall]
  · intro hall
    rw [hm, List.filter_eq_self.2 hall]

/-- C5, amended, at PR 7: no review, both comments parse to instants after the
zero time, and both are counted. -/
theorem FetchReviewed_counts_at_zero_lastReviewTime_witness :
    lastReviewTime sampleParse "alice" reviewedNode7.Reviews = zeroTime ∧
    newCommits sampleParse "alice" reviewedNode7 = 0 ∧
    newComments sampleParse "alice" reviewedNode7 = 2 :=
  ⟨by decide,
    (FetchReviewed_counts_at_zero_lastReviewTime sampleParse "alice" reviewedNode7
      (by decide)).1.trans (by decide),
    ((FetchReviewed_counts_at_zero_lastReviewTime sampleParse "alice" reviewedNode7
      (by decide)).2.2.2 (by decide)).trans (by decide)⟩

/-! ## The activity string -/

/-- A string that ends in a non-empty suffix is not empty. -/
theorem append_ne_empty (x suffix : String) (h : suffix.length ≠ 0) : x ++ suffix ≠ "" := by
  intro he
  have hl := congrArg String.length he
  simp only [String.length_append, String.length_empty, Nat.add_eq_zero] at hl
  exact h hl.2

/-- `joinStrings` of no string is the empty string. -/
theorem joinStrings_nil (sep : String) : joinStrings [] sep = "" := rfl

/-- `joinStrings` of one string is that string. -/
theorem joinStrings_one (x sep : String) : joinStrings [x] sep = x := by
  simp [joinStrings, joinStringsLoop]

/-- `joinStrings` of two strings puts the separator between them. -/
theorem joinStrings_two (x y sep : String) : joinStrings [x, y] sep = x ++ sep ++ y := by
  simp [joinStrings, joinStringsLoop]

/-- C6. For all counts `newCommits ≥ 0` and `newComments ≥ 0`: the activity
string is empty if and only if both counts are zero; it is `joinStrings`, with
the separator `", "`, of the non-zero counts rendered as `"<n> commits"` and
`"<n> comments"`, commits first; so it is `"<n> commits"`, `"<m> comments"` or
`"<n> commits, <m> comments"`. -/
theorem activityString_spec (newCommits newComments : Int)
    (hc : 0 ≤ newCommits) (hm : 0 ≤ newComments) :
    (activityString newCommits newComments = "" ↔ newCommits = 0 ∧ newComments = 0) ∧
    activityString newCommits newComments =
      joinStrings
        ((if 0 < newCommits then [toString newCommits ++ " commits"] else []) ++
          (if 0 < newComments then [toString newComments ++ " comments"] else [])) ", " ∧
    (0 < newCommits → newComments = 0 →
      activityString newCommits newComments = toString newCommits ++ " commits") ∧
    (newCommits = 0 → 0 < newComments →
      activityString newCommits newComments = toString newComments ++ " comments") ∧
    (0 < newCommits → 0 < newComments →
      activityString newCommits newComments =
        toString newCommits ++ " commits" ++ ", " ++ toString newComments ++ " comments") := by
  have h10 : 0 < newCommits → newComments = 0 →
      activityString newCommits newComments = toString newCommits ++ " commits" := by
    intro h1 h2
    subst h2
    simp [activityString, h1, joinStrings_one]
  have h01 : newCommits = 0 → 0 < newComments →
      activityString newCommits newComments = toString newComments ++ " comments" := by
    intro h1 h2
    subst h1
    simp [activityString, h2, joinStrings_one]
  have h11 : 0 < newCommits → 0 < newComments →
      activityString newCommits newComments =
        toString newCommits ++ " commits" ++ ", " ++ toString newComments ++ " comments" := by
    intro h1 h2
    simp [activityString, h1, h2, joinStrings_two, String.append_assoc]
  have h00 : newCommits = 0 → newComments = 0 → activityString newCommits newComments = "" := by
    intro h1 h2
    subst h1 h2
    simp [activityString]
  refine ⟨⟨?_, fun h => h00 h.1 h.2⟩, ?_, h10, h01, h11⟩
  · intro he
    rcases lt_or_eq_of_le hc with h1 | h1 <;> rcases lt_or_eq_of_le hm with h2 | h2
    · rw [h11 h1 h2] at he
      exact absurd he (append_ne_empty _ _ (by decide))
    · rw [h10 h1 h2.symm] at he
      exact absurd he (append_ne_empty _ _ (by decide))
    · rw [h01 h1.symm h2] at he
      exact absurd he (append_ne_empty _ _ (by decide))
    · exact ⟨h1.symm, h2.symm⟩
  · rcases lt_or_eq_of_le hc with h1 | h1 <;> rcases lt_or_eq_of_le hm with h2 | h2
    · rw [h11 h1 h2]
      simp [h1, h2, joinStrings_two, String.append_assoc]
    · rw [h10 h1 h2.symm]
      simp [h1, ← h2, joinStrings_one]
    · rw [h01 h1.symm h2]
      simp [← h1, h2, joinStrings_one]
    · rw [h00 h1.symm h2.symm]
      simp [← h1, ← h2, joinStrings_nil]

/-- C6 at the counts (1, 0), (0, 2), (1, 2) and (0, 0). -/
theorem activityString_spec_witness :
    activityString 1 0 = "1 commits" ∧ activityString 0 2 = "2 comments" ∧
    activityString 1 2 = "1 commits, 2 comments" ∧ activityString 0 0 = "" :=
  ⟨((activityString_spec 1 0 (by decide) (by decide)).2.2.1 (by decide) rfl).trans (by decide),
    ((activityString_spec 0 2 (by decide) (by decide)).2.2.2.1 rfl (by decide)).trans
      (by decide),
    ((activityString_spec 1 2 (by decide) (by decide)).2.2.2.2 (by decide) (by decide)).trans
      (by decide),
    (activityString_spec 0 0 (by decide) (by decide)).1.2 ⟨rfl, rfl⟩⟩

/-! ## The reviewer filter and the normalizer -/

/-- The reviewer test holds exactly when some requested reviewer has the login
of the current user. -/
theorem isDirectReviewer_iff (currentUser : String) (rrs : List ReviewRequestNode) :
    isDirectReviewer currentUser rrs = true ↔
      ∃ rr, rr ∈ rrs ∧ rr.RequestedReviewerLogin = currentUser := by
  induction rrs with
  | nil => simp [isDirectReviewer]
  | cons rr rest ih =>
    by_cases h : rr.RequestedReviewerLogin = currentUser
    · simp [isDirectReviewer, h]
    · simp [isDirectReviewer, h, ih]

/-- With a current user and a decoded response, `fetchPRs` returns the loop's
result. -/
theorem fetchPRs_ok (parse : String → Option Time) (currentUser : String)
    (nodes : List SearchNode) (flt : Bool) :
    fetchPRs parse (.ok currentUser) (.decoded nodes) flt =
      .ok ((nodes.filter
        (fun node => !flt || isDirectReviewer currentUser node.ReviewRequests)).map
          (searchNodePR parse)) := by
  cases flt <;> simp [fetchPRs, fetchPRsLoop_eq]

/-- With a current user and a decoded response, `FetchReviewed` returns one PR
per node. -/
theorem FetchReviewed_ok (parse : String → Option Time) (w : World) (currentUser : String)
    (nodes : List ReviewedNode) (hu : w.reviewedUser = .ok currentUser)
    (hr : w.reviewedResp = .decoded nodes) :
    FetchReviewed parse w = .ok (nodes.map (reviewedNodePR parse currentUser)) := by
  simp [FetchReviewed, hu, hr, FetchReviewedLoop_eq]

/-- C7, amended. For every non-empty current-user login and every sequence of
review-requested nodes, `fetchPRs` with `filterDirectReviewer = true` returns,
in input order, the PRs of exactly the nodes one of whose requested reviewers
has a login equal to the current user's; team-based requests, which decode
with the empty login, never cause a PR to be kept: the test gives the same
answer without them, and a node with team-based requests only is dropped. -/
theorem fetchPRs_keeps_direct_reviewer (parse : String → Option Time) (currentUser : String)
    (nodes : List SearchNode) (hu : currentUser ≠ "") :
    fetchPRs parse (.ok currentUser) (.decoded nodes) true =
      .ok ((nodes.filter (fun node => isDirectReviewer currentUser node.ReviewRequests)).map
        (searchNodePR parse)) ∧
    (∀ rrs : List ReviewRequestNode, isDirectReviewer currentUser rrs = true ↔
      ∃ rr, rr ∈ rrs ∧ rr.RequestedReviewerLogin = currentUser) ∧
    (∀ rrs : List ReviewRequestNode, isDirectReviewer currentUser rrs =
      isDirectReviewer currentUser (rrs.filter (fun rr => rr.RequestedReviewerLogin ≠ ""))) ∧
    (∀ node : SearchNode, (∀ rr ∈ node.ReviewRequests, rr.RequestedReviewerLogin = "") →
      fetchPRs parse (.ok currentUser) (.decoded [node]) true = .ok []) := by
  have hteam : ∀ rrs : List ReviewRequestNode, isDirectReviewer currentUser rrs =
      isDirectReviewer currentUser (rrs.filter (fun rr => rr.RequestedReviewerLogin ≠ "")) := by
    intro rrs
    induction rrs with
    | nil => rfl
    | cons rr rest ih =>
      by_cases h : rr.RequestedReviewerLogin = currentUser
      · simp [List.filter_cons, hu, isDirectReviewer, h]
      · by_cases he : rr.RequestedReviewerLogin = ""
        · simp only [List.filter_cons, he, ne_eq, not_true_eq_false, decide_False,
            Bool.false_eq_true, if_false, isDirectReviewer, hu.symm]
          simpa using ih
        · simp [List.filter_cons, he, isDirectReviewer, h, ih]
  refine ⟨by simpa using fetchPRs_ok parse currentUser nodes true,
    isDirectReviewer_iff currentUser, hteam, ?_⟩
  intro node hall
  have hnone : isDirectReviewer currentUser node.ReviewRequests = false := by
    rw [hteam, List.filter_eq_nil_iff.2 (by simpa using hall)]
    rfl
  rw [fetchPRs_ok]
  simp [hnone]

/-- C7, amended, for `alice`: the node requested from a team is dropped, the
one requested from `alice` is kept. -/
theorem fetchPRs_keeps_direct_reviewer_witness :
    fetchPRs sampleParse (.ok "alice") (.decoded [teamNode, pendingNode7]) true = .ok [pr7] :=
  (fetchPRs_keeps_direct_reviewer sampleParse "alice" [teamNode, pendingNode7]
    (by decide)).1.trans rfl

/-- C7 as worded fails for the empty login, which `getCurrentUser` returns when
`gh` prints a bare newline: the node whose only request is team-based is
kept. -/
theorem empty_login_keeps_team_request :
    getCurrentUser (.ok (bytesOf "\n")) = some (.ok (bytesOf "")) ∧
    fetchPRs sampleParse (.ok "") (.decoded [teamNode]) true =
      .ok [searchNodePR sampleParse teamNode] :=
  ⟨rfl, rfl⟩

/-- C9 as worded fails: the nodes without `number`, `title` and `url` are not
dropped by `FetchReviewRequests` (`fetchPRs`) nor by `FetchReviewed`; each
yields a PR with the number `0` and the empty title and url. -/
theorem node_without_required_fields_is_kept :
    FetchReviewRequests sampleParse blankWorld = .ok [blankPR, pr7] ∧
    FetchReviewed sampleParse blankWorld =
      .ok [blankPR, { pr7 with Activity := "2 comments" }] :=
  ⟨rfl, rfl⟩

/-- C9, amended. No node is dropped for a missing `number`, `title` or `url`:
with a current user and a decoded response, `fetchPRs` returns without error
one PR per node that passes the reviewer test (per node when the test is off)
and `FetchReviewed` one PR per node, in input order, each PR carrying the
number, title and url the node decoded with (`0` and the empty string when
they are missing). -/
theorem normalizer_keeps_every_node (parse : String → Option Time) (currentUser : String)
    (nodes : List SearchNode) (flt : Bool) (w : World) (rnodes : List ReviewedNode)
    (hu : w.reviewedUser = .ok currentUser) (hr : w.reviewedResp = .decoded rnodes) :
    fetchPRs parse (.ok currentUser) (.decoded nodes) flt =
      .ok ((nodes.filter
        (fun node => !flt || isDirectReviewer currentUser node.ReviewRequests)).map
          (searchNodePR parse)) ∧
    FetchReviewed parse w = .ok (rnodes.map (reviewedNodePR parse currentUser)) ∧
    (∀ node : SearchNode, (searchNodePR parse node).Number = node.Number ∧
      (searchNodePR parse node).Title = node.Title ∧
      (searchNodePR parse node).URL = node.URL) ∧
    (∀ node : ReviewedNode, (reviewedNodePR parse currentUser node).Number = node.Number ∧
      (reviewedNodePR parse currentUser node).Title = node.Title ∧
      (reviewedNodePR parse currentUser node).URL = node.URL) :=
  ⟨fetchPRs_ok parse currentUser nodes flt,
    FetchReviewed_ok parse w currentUser rnodes hu hr,
    fun _ => ⟨rfl, rfl, rfl⟩, fun _ => ⟨rfl, rfl, rfl⟩⟩

/-- C9, amended, on `blankWorld`: `FetchReviewed` returns two PRs for its two
nodes, the first with the number `0`. -/
theorem normalizer_keeps_every_node_witness :
    FetchReviewed sampleParse blankWorld =
      .ok [blankPR, { pr7 with Activity := "2 comments" }] ∧
    fetchPRs sampleParse (.ok "alice") (.decoded [blankNode, pendingNode7]) false =
      .ok [blankPR, pr7] :=
  ⟨(normalizer_keeps_every_node sampleParse "alice" [blankNode, pendingNode7] false blankWorld
      [blankReviewedNode, reviewedNode7] rfl rfl).2.1.trans rfl,
    (normalizer_keeps_every_node sampleParse "alice" [blankNode, pendingNode7] false blankWorld
      [blankReviewedNode, reviewedNode7] rfl rfl).1.trans rfl⟩

/-! ## The sort of the list command -/

/-- The `less` closure of the list command meets the requirements of
`sort.Slice`. -/
theorem createdAfter_lessOK : LessOK createdAfter where
  irrefl := by
    intro a
    simp [createdAfter, After]
  trans := by
    intro a b c hab hbc
    simp only [createdAfter, After, decide_eq_true_eq] at *
    exact lt_trans hbc hab
  negTrans := by
    intro a b c hab hbc
    simp only [createdAfter, After, decide_eq_false_iff_not, not_lt] at *
    exact le_trans hab hbc

/-- For a `less` meeting the requirements, "not less than" is a total
relation. -/
theorem LessOK.total {α : Type} {less : α → α → Bool} (h : LessOK less) (a b : α) :
    less b a = false ∨ less a b = false := by
  cases hba : less b a
  · exact Or.inl rfl
  · cases hab : less a b
    · exact Or.inr rfl
    · have := h.trans a b a hab hba
      rw [h.irrefl a] at this
      cases this

/-- Insertion sort along "not less than" sorts, for a `less` meeting the
requirements. -/
theorem insertionSort_sorted {α : Type} (less : α → α → Bool) (h : LessOK less)
    (xs : List α) :
    (xs.insertionSort (fun a b => less b a = false)).Pairwise
      (fun a b => less b a = false) := by
  haveI : IsTotal α (fun a b => less b a = false) := ⟨fun a b => h.total a b⟩
  haveI : IsTrans α (fun a b => less b a = false) :=
    ⟨fun a b c hab hbc => h.negTrans c b a hbc hab⟩
  exact List.sorted_insertionSort (fun a b => less b a = false) xs

/-- Insertion sort meets the contract of `sort.Slice`. -/
theorem sortTiesKept_contract : SliceContract sortTiesKept where
  perm := fun _ less xs => List.perm_insertionSort (fun a b => less b a = false) xs
  sorted := fun _ less xs h => insertionSort_sorted less h xs

/-- Insertion sort of the reversed slice meets the contract of `sort.Slice`. -/
theorem sortTiesReversed_contract : SliceContract sortTiesReversed where
  perm := fun _ less xs =>
    (List.perm_insertionSort (fun a b => less b a = false) xs.reverse).trans
      (List.reverse_perm xs)
  sorted := fun _ less xs h => insertionSort_sorted less h xs.reverse

/-- C8, amended. For every sequence of PRs and every `sort.Slice` within its
contract, the sort of the list command returns a permutation of its input in
which no PR is created later than one before it (newest first); the order of
PRs with equal `CreatedAt` is left to `sort.Slice`. -/
theorem sortStep_sorted_perm (sort : SortFn) (h : SliceContract sort) (prs : List PR) :
    (sortStep sort prs).Perm prs ∧
    (sortStep sort prs).Pairwise (fun a b => b.CreatedAt ≤ a.CreatedAt) := by
  refine ⟨h.perm PR createdAfter prs, ?_⟩
  refine (h.sorted PR createdAfter prs createdAfter_lessOK).imp ?_
  intro a b hab
  simpa [createdAfter, After] using hab

/-- C8, amended, on three PRs created at 11:00, 13:00 and 11:00: the one of
13:00 comes first. -/
theorem sortStep_sorted_perm_witness :
    sortStep sortTiesKept
        [pr7, { pr7 with Number := 8, CreatedAt := 63850165200000000000 },
          { pr7 with Number := 9 }] =
      [{ pr7 with Number := 8, CreatedAt := 63850165200000000000 }, pr7,
        { pr7 with Number := 9 }] ∧
    (sortStep sortTiesKept
        [pr7, { pr7 with Number := 8, CreatedAt := 63850165200000000000 },
          { pr7 with Number := 9 }]).Pairwise (fun a b => b.CreatedAt ≤ a.CreatedAt) :=
  ⟨by decide,
    (sortStep_sorted_perm sortTiesKept sortTiesKept_contract
      [pr7, { pr7 with Number := 8, CreatedAt := 63850165200000000000 },
        { pr7 with Number := 9 }]).2⟩

/-- C8 as worded fails: the contract of `sort.Slice` allows a sort that
reverses PRs with equal `CreatedAt`.  On `tiedPRs` such a sort returns PR 13
and then the PRs 12 down to 1, which are all of 11:00 and came in the order
1 to 12.  (The input has thirteen PRs: Go's implementation sorts up to twelve
elements by insertion, which keeps ties, and partitions longer slices around a
pivot, which does not.) -/
theorem sort_slice_need_not_keep_ties :
    numbers (sortStep sortTiesReversed tiedPRs) =
      [13, 12, 11, 10, 9, 8, 7, 6, 5, 4, 3, 2, 1] ∧
    ¬ KeepsTies tiedPRs (sortStep sortTiesReversed tiedPRs) ∧
    ¬ (∀ sort : SortFn, SliceContract sort → ∀ prs : List PR,
      KeepsTies prs (sortStep sort prs)) := by
  refine ⟨by decide, by decide, fun h => ?_⟩
  exact absurd (h sortTiesReversed sortTiesReversed_contract tiedPRs) (by decide)

/-! ## The limit of the list command -/

/-- C10. For every limit `K` and every sequence of `N` PRs: when `0 < K < N`
the limit step keeps exactly the first `K` PRs, sets `hasMore` and has
`totalCount = N`, and the command writes those `K` PRs (in table mode after
the line "Showing K of N PRs"); when `K ≤ 0` or `K ≥ N` the sequence is
unchanged, `hasMore` is false and `totalCount = N`, and the command writes the
whole sequence: as the JSON document of the sequence, or as the table of the
sequence after the line "Found N PRs" (for the empty sequence, as `[]` or as
the empty message). -/
theorem limitStep_spec (limitFlag : Int) (prs : List PR) :
    (0 < limitFlag → limitFlag < (prs.length : Int) →
      limitStep limitFlag prs =
          { totalCount := prs.length, hasMore := true, prs := prs.take limitFlag.toNat } ∧
        ((prs.take limitFlag.toNat).length : Int) = limitFlag ∧
        (∀ emptyMsg headerMsg : String,
          showStep true limitFlag emptyMsg headerMsg prs =
              [Out.json (prs.take limitFlag.toNat)] ∧
            showStep false limitFlag emptyMsg headerMsg prs =
              [Out.text (headerMsg ++ "\n"),
                Out.text ("\nShowing " ++ toString limitFlag ++ " of " ++
                  toString (prs.length : Int) ++ " PRs (use --limit to see more):\n\n"),
                Out.table (prs.take limitFlag.toNat)])) ∧
    (limitFlag ≤ 0 ∨ (prs.length : Int) ≤ limitFlag →
      limitStep limitFlag prs =
          { totalCount := prs.length, hasMore := false, prs := prs } ∧
        (∀ emptyMsg headerMsg : String,
          (prs ≠ [] →
            showStep true limitFlag emptyMsg headerMsg prs = [Out.json prs] ∧
            showStep false limitFlag emptyMsg headerMsg prs =
              [Out.text (headerMsg ++ "\n"),
                Out.text ("\nFound " ++ toString (prs.length : Int) ++ " PRs:\n\n"),
                Out.table prs]) ∧
          (prs = [] →
            showStep true limitFlag emptyMsg headerMsg prs = [Out.text "[]\n"] ∧
            showStep false limitFlag emptyMsg headerMsg prs =
              [Out.text (emptyMsg ++ "\n")]))) := by
  constructor
  · intro h0 hlt
    have hstep : limitStep limitFlag prs =
        { totalCount := prs.length, hasMore := true, prs := prs.take limitFlag.toNat } := by
      simp [limitStep, h0, hlt]
    have hne : ¬ ((prs.length : Int) = 0) := by omega
    refine ⟨hstep, ?_, ?_⟩
    · rw [List.length_take]
      omega
    · intro emptyMsg headerMsg
      simp [showStep, hstep, hne]
  · intro h
    have hcond : ¬ (limitFlag > 0 ∧ (prs.length : Int) > limitFlag) := by
      rintro ⟨h1, h2⟩
      omega
    have hstep : limitStep limitFlag prs =
        { totalCount := prs.length, hasMore := false, prs := prs } := by
      simp [limitStep, hcond]
    refine ⟨hstep, fun emptyMsg headerMsg => ⟨?_, ?_⟩⟩
    · intro hprs
      have hne : ¬ ((prs.length : Int) = 0) := by
        have := List.length_pos.2 hprs
        omega
      simp [showStep, hstep, hne]
    · intro hprs
      subst hprs
      simp [showStep]

/-- C10 with the limit 2 on three PRs, and with the limits 0 and 3, for which
the command writes the three PRs after "Found 3 PRs". -/
theorem limitStep_spec_witness :
    limitStep 2 [pr7, { pr7 with Number := 8 }, { pr7 with Number := 9 }] =
      { totalCount := 3, hasMore := true, prs := [pr7, { pr7 with Number := 8 }] } ∧
    limitStep 0 [pr7, { pr7 with Number := 8 }, { pr7 with Number := 9 }] =
      { totalCount := 3, hasMore := false,
        prs := [pr7, { pr7 with Number := 8 }, { pr7 with Number := 9 }] } ∧
    limitStep 3 [pr7, { pr7 with Number := 8 }, { pr7 with Number := 9 }] =
      { totalCount := 3, hasMore := false,
        prs := [pr7, { pr7 with Number := 8 }, { pr7 with Number := 9 }] } ∧
    showStep false 2 "none" "all" [pr7, { pr7 with Number := 8 }, { pr7 with Number := 9 }] =
      [Out.text "all\n", Out.text "\nShowing 2 of 3 PRs (use --limit to see more):\n\n",
        Out.table [pr7, { pr7 with Number := 8 }]] ∧
    showStep false 0 "none" "all" [pr7, { pr7 with Number := 8 }, { pr7 with Number := 9 }] =
      [Out.text "all\n", Out.text "\nFound 3 PRs:\n\n",
        Out.table [pr7, { pr7 with Number := 8 }, { pr7 with Number := 9 }]] ∧
    showStep true 3 "none" "all" [pr7, { pr7 with Number := 8 }, { pr7 with Number := 9 }] =
      [Out.json [pr7, { pr7 with Number := 8 }, { pr7 with Number := 9 }]] :=
  ⟨((limitStep_spec 2 [pr7, { pr7 with Number := 8 }, { pr7 with Number := 9 }]).1
      (by decide) (by decide)).1,
    ((limitStep_spec 0 [pr7, { pr7 with Number := 8 }, { pr7 with Number := 9 }]).2
      (Or.inl (by decide))).1,
    ((limitStep_spec 3 [pr7, { pr7 with Number := 8 }, { pr7 with Number := 9 }]).2
      (Or.inr (by decide))).1,
    ((((limitStep_spec 2 [pr7, { pr7 with Number := 8 }, { pr7 with Number := 9 }]).1
      (by decide) (by decide)).2.2 "none" "all").2).trans (by decide),
    (((((limitStep_spec 0 [pr7, { pr7 with Number := 8 }, { pr7 with Number := 9 }]).2
      (Or.inl (by decide))).2 "none" "all").1 (by decide)).2).trans (by decide),
    ((((limitStep_spec 3 [pr7, { pr7 with Number := 8 }, { pr7 with Number := 9 }]).2
      (Or.inr (by decide))).2 "none" "all").1 (by decide)).1⟩

end Plantir
